import Mathlib

/-!
Shallow embedding of the signal-processing core of the `uhd-radio`
repository, together with proofs settling the frozen claims about it.

The embedding follows the Python sources:
  * `src/data_modem.py`          — DPSK modem (modulate / robust demodulate)
  * `src/sdr_lib/sdr_utils.py`   — probe generation, matched-filter
                                   detection, CSI metrics, steering phase,
                                   beamforming
  * `src/mimo_direction_finding.py` — angle-of-arrival estimation
  * `src/object_detection.py`    — calibration / anomaly engine

Floating-point arithmetic is modelled by exact arithmetic: rational
complex numbers where every value produced by the code is rational
(the modem, whose symbol phases are all integer multiples of pi), and
real/complex numbers elsewhere.  IEEE `log10(0) = -inf` is modelled with
`EReal`.  Module-level configuration constants that the scripts expose
for editing (carrier frequency, antenna spacing, calibration offset) are
taken as parameters of the functions that read them.
-/

namespace UhdRadio

/-! ## DPSK data modem (`src/data_modem.py`)

All symbols produced by `modulate_dbpsk` have phase `k * pi` for an
integer `k`, so every sample is the rational complex number
`((-1)^k * 0.7, 0)`.  We therefore embed the modem over exact complex
numbers with rational components.  -/

/-- Exact complex numbers: pairs `(re, im)` of rationals. -/
abbrev CQ : Type := ℚ × ℚ

/-- Complex zero, the value of an empty (silence) sample. -/
def cqZero : CQ := (0, 0)

/-- Complex multiplication on `CQ`. -/
def cqMul (a b : CQ) : CQ := (a.1 * b.1 - a.2 * b.2, a.1 * b.2 + a.2 * b.1)

/-- Complex conjugation on `CQ` (`np.conj`). -/
def cqConj (a : CQ) : CQ := (a.1, -a.2)

/-- Scaling a complex sample by a real (rational) factor. -/
def cqSmul (r : ℚ) (a : CQ) : CQ := (r * a.1, r * a.2)

/-- `exp(1j * (k*pi))` for a natural number `k` of accumulated `pi`
phase increments: exactly `((-1)^k, 0)`. -/
def cexpPi (k : ℕ) : CQ := ((-1) ^ k, 0)

/-- Samples-per-symbol constant (`SPS = 100` in `src/data_modem.py`). -/
def SPS : ℕ := 100

/-- `text_to_bits`: each character expands MSB-first into its 8 bits
(`(ord(char) >> i) & 1` for `i = 7 .. 0`). -/
def text_to_bits (chars : List Char) : List ℕ :=
  chars.flatMap fun c => (List.range 8).map fun j => (c.toNat >>> (7 - j)) % 2

/-- Payload modulation loop of `modulate_dbpsk`: starting with `k`
accumulated `pi` phase increments, a `1` bit adds `pi` to the phase and
every bit emits one symbol `exp(1j * current_phase)`. -/
def payloadSyms : ℕ → List ℕ → List CQ
  | _, [] => []
  | k, b :: bs =>
    let k' := if b = 1 then k + 1 else k
    cexpPi k' :: payloadSyms k' bs

/-- The symbol sequence built by `modulate_dbpsk` before sample
repetition: 50 pilot symbols at constant phase, one sync symbol with a
`pi` phase flip, then one symbol per payload bit.  The payload is the
length byte `chr(len(text))` followed by the text. -/
def modSymbolList (text : String) : List CQ :=
  let full_payload := Char.ofNat text.length :: text.data
  let bits := text_to_bits full_payload
  List.replicate 50 (cexpPi 0) ++ [cexpPi 1] ++ payloadSyms 1 bits

/-- `modulate_dbpsk`: the symbol sequence with each symbol repeated
`SPS` times (`np.repeat(symbols, SPS)`), scaled by the amplitude factor
`0.7`. -/
def modulate_dbpsk (text : String) : List CQ :=
  ((modSymbolList text).flatMap fun w => List.replicate SPS w).map (cqSmul (7/10))

/-- Every `step`-th element of a list, starting with its head
(the slicing `l[0::step]`). -/
def everyNth : List CQ → ℕ → List CQ
  | [], _ => []
  | x :: xs, step => x :: everyNth (xs.drop (step - 1)) step
termination_by l _ => l.length
decreasing_by simp [List.length_drop]; omega

/-- Python slicing `l[start::step]`. -/
def sliceStep (l : List CQ) (start step : ℕ) : List CQ :=
  everyNth (l.drop start) step

/-- Differential detection of `demodulate_dbpsk_robust`:
`diffs[i] = raw[i+1] * conj(raw[i])`, and a bit is `1` iff
`|np.angle(diffs[i])| > pi/2`.  For a complex number `z` (including
`z = 0`, whose angle is `0`) that condition holds iff `re z < 0`. -/
def diffBits (raw : List CQ) : List ℕ :=
  ((List.zipWith (fun cur prev => cqMul cur (cqConj prev)) raw.tail raw).map
    fun z => if z.1 < 0 then 1 else 0)

/-- `bits_to_text`: consume 8 bits at a time MSB-first
(`val = (val << 1) | bit`), stopping at a trailing chunk shorter
than 8 bits. -/
def bits_to_text : List ℕ → List Char
  | b0 :: b1 :: b2 :: b3 :: b4 :: b5 :: b6 :: b7 :: rest =>
    Char.ofNat ([b0, b1, b2, b3, b4, b5, b6, b7].foldl (fun v b => (v <<< 1) ||| b) 0)
      :: bits_to_text rest
  | _ => []

/-- One candidate offset of the robust demodulator: the body of the
`for offset in range(0, SPS, 10)` loop in `demodulate_dbpsk_robust`,
acting on the downsampled symbol stream `raw`; `none` is a `continue`. -/
def decodeCandidate (raw : List CQ) : Option String :=
  if raw.length < 60 then none else
  let detected_bits := diffBits raw
  let preamble_zeros := ((detected_bits.take 48).filter fun b => b = 0).length
  if preamble_zeros < 40 then none else
  match ((detected_bits.drop 45).take 15).findIdx? (fun b => b = 1) with
  | none => none
  | some sync_rel_idx =>
    let start_of_data := 45 + sync_rel_idx + 1
    let len_bits := (detected_bits.drop start_of_data).take 8
    if len_bits.length < 8 then none else
    let msg_len := len_bits.foldl (fun v b => (v <<< 1) ||| b) 0
    if msg_len = 0 ∨ msg_len > 100 then none else
    let payload_start := start_of_data + 8
    let payload_end := payload_start + msg_len * 8
    if detected_bits.length < payload_end then none else
    let payload_bits := (detected_bits.drop payload_start).take (msg_len * 8)
    let text := bits_to_text payload_bits
    some (String.mk (text.filter fun c => decide (32 ≤ c.toNat ∧ c.toNat ≤ 126)))

/-- Best-score accumulation of the demodulator: keep the decoded text of
the current offset iff it is strictly longer than the best so far. -/
def demodStep (best : String × ℤ) (raw : List CQ) : String × ℤ :=
  match decodeCandidate raw with
  | none => best
  | some clean_text =>
    if (clean_text.length : ℤ) > best.2 then (clean_text, (clean_text.length : ℤ)) else best

/-- The candidate offsets `range(0, SPS, 10)`. -/
def demodOffsets : List ℕ := (List.range (SPS / 10)).map fun t => t * 10

/-- `demodulate_dbpsk_robust`: try every offset, downsample at stride
`SPS`, decode, and return the best-scoring text (initial score `-1`). -/
def demodulate_dbpsk_robust (rx_chunk : List CQ) : String :=
  (demodOffsets.foldl (fun best offset => demodStep best (sliceStep rx_chunk offset SPS))
    ("", -1)).1

/-- The scaled symbol sequence of the `"Hello World"` frame: the
concrete list whose `SPS`-fold sample repetition is
`modulate_dbpsk "Hello World"`. -/
def hwScaledSymbols : List CQ := (modSymbolList "Hello World").map (cqSmul (7/10))

/-! ## Probe generation and matched-filter detection
(`src/sdr_lib/sdr_utils.py`, also duplicated per script) -/

/-- `np.mean` of a list of reals. -/
noncomputable def listMean (l : List ℝ) : ℝ := l.sum / l.length

/-- `np.hanning(M)`: the Hann window
`0.5 - 0.5*cos(2*pi*n/(M-1))` for `n = 0 .. M-1` (and `[1.0]` for `M = 1`). -/
noncomputable def npHanning (M : ℕ) : List ℝ :=
  if M = 1 then [1] else
    (List.range M).map fun (n : ℕ) => 0.5 - 0.5 * Real.cos (2 * Real.pi * (n : ℝ) / ((M : ℝ) - 1))

/-- `generate_chirp_probe(length)`: linear chirp
`exp(1j*pi*(t^2/length))` windowed by a Hann window and scaled by `0.7`. -/
noncomputable def generate_chirp_probe (length : ℕ) : List ℂ :=
  let chirp := (List.range length).map fun (t : ℕ) =>
    Complex.exp (Complex.I * Real.pi * ((t : ℝ) ^ 2 / (length : ℝ)))
  (List.zipWith (fun c (w : ℝ) => c * (w : ℂ)) chirp (npHanning length)).map
    fun z => z * ((0.7 : ℝ) : ℂ)

/-- Length of the sounding pulse (`CHIRP_LEN = 256`). -/
def CHIRP_LEN : ℕ := 256

/-- The precomputed probe `PROBE_TX = generate_chirp_probe(CHIRP_LEN)`. -/
noncomputable def PROBE_TX : List ℂ := generate_chirp_probe CHIRP_LEN

/-- valid-mode `np.correlate(a, v)` for `len(a) >= len(v)`:
`c[k] = sum_i a[k+i] * conj(v[i])` for the fully-overlapping lags
`k = 0 .. len(a) - len(v)`. -/
noncomputable def npCorrelateValid (a v : List ℂ) : List ℂ :=
  (List.range (a.length - v.length + 1)).map fun (k : ℕ) =>
    ∑ i ∈ Finset.range v.length, a.getD (k + i) 0 * (starRingEnd ℂ) (v.getD i 0)

open Classical in
/-- `np.argmax`: index of the first occurrence of the maximum value
(`0` for an empty list, which `np.argmax` rejects). -/
noncomputable def npArgmax : List ℝ → ℕ
  | [] => 0
  | [_] => 0
  | x :: y :: xs =>
    if (y :: xs).getD (npArgmax (y :: xs)) 0 > x then npArgmax (y :: xs) + 1 else 0

/-- IEEE `np.log10` on the extended reals: `log10 0 = -inf` (and the
`NaN` produced for negative input, which never occurs here since the
argument is a ratio of non-negative magnitudes, is also mapped to the
bottom element). -/
noncomputable def npLog10E (x : ℝ) : EReal :=
  if x ≤ 0 then ⊥ else ((Real.logb 10 x : ℝ) : EReal)

/-- The dictionary returned by `correlate_and_detect`. -/
structure DetectionResult where
  correlation : List ℂ
  mag : List ℝ
  peak_idx : ℕ
  peak_val : ℝ
  snr_db : EReal
  noise_floor : ℝ

open Classical in
/-- `correlate_and_detect(rx_chunk, probe_sequence)`
(`src/sdr_lib/sdr_utils.py` lines 36-63): valid-mode correlation,
first-maximum peak search, noise floor from the magnitudes before the
peak (fallback `1e-9`), and `snr_db = 10*log10(peak/(noise+1e-12))`. -/
noncomputable def correlate_and_detect (rx_chunk probe_sequence : List ℂ) : DetectionResult :=
  let correlation := npCorrelateValid rx_chunk probe_sequence
  let mag := correlation.map Complex.abs
  let peak_idx := npArgmax mag
  let peak_val := mag.getD peak_idx 0
  let noise_floor :=
    if 20 < peak_idx then
      let noise_region := mag.take (peak_idx - 10)
      if 0 < noise_region.length then listMean noise_region else 1e-9
    else (1e-9 : ℝ)
  let snr_linear := peak_val / (noise_floor + 1e-12)
  let snr_db := (10 : EReal) * npLog10E snr_linear
  ⟨correlation, mag, peak_idx, peak_val, snr_db, noise_floor⟩

/-! ## CSI metric extraction (`calculate_csi_metrics`, identical logic in
`src/sdr_lib/sdr_utils.py`, `src/csi_analysis.py` and
`src/object_detection.py`) -/

/-- `np.max` of a list of reals (`np.max` rejects an empty array; the
`0` returned here for `[]` is never relied upon). -/
noncomputable def npMax : List ℝ → ℝ
  | [] => 0
  | x :: xs => xs.foldl max x

open Classical in
/-- `np.where(P(l))[0]`: the ascending indices of the elements
satisfying `P`. -/
noncomputable def npWhere (P : ℝ → Prop) : List ℝ → List ℕ
  | [] => []
  | x :: xs => (if P x then [0] else []) ++ (npWhere P xs).map fun (i : ℕ) => i + 1

/-- The power delay profile `pdp = np.abs(cir_window)**2`. -/
noncomputable def csiPdp (cir_window : List ℂ) : List ℝ :=
  cir_window.map fun z => Complex.abs z ^ 2

/-- The noise gate `thresh = np.max(pdp) * 0.1`. -/
noncomputable def csiThresh (cir_window : List ℂ) : ℝ :=
  npMax (csiPdp cir_window) * 0.1

/-- `valid_indices = np.where(pdp > thresh)[0]`. -/
noncomputable def csiValidIndices (cir_window : List ℂ) : List ℕ :=
  npWhere (fun v => csiThresh cir_window < v) (csiPdp cir_window)

open Classical in
/-- The delay-domain part of `calculate_csi_metrics`: the pair
`(rms_delay, coherence_bw)` (seconds and Hz, before the unit conversion
applied in the returned dictionary). -/
noncomputable def csi_core (cir_window : List ℂ) (sample_rate : ℝ) : ℝ × ℝ :=
  let pdp := csiPdp cir_window
  let valid_indices := csiValidIndices cir_window
  if valid_indices.length < 2 then (0, sample_rate)
  else
    let first_path := valid_indices.headD 0
    let pdp_clean := valid_indices.map fun (i : ℕ) => pdp.getD i 0
    let delays_sec := valid_indices.map fun (i : ℕ) => ((i : ℝ) - (first_path : ℝ)) / sample_rate
    let total_power := pdp_clean.sum
    let mean_delay := (List.zipWith (· * ·) pdp_clean delays_sec).sum / total_power
    let sq_delay_error := delays_sec.map fun d => (d - mean_delay) ^ 2
    let rms_delay :=
      Real.sqrt ((List.zipWith (· * ·) pdp_clean sq_delay_error).sum / total_power)
    let coherence_bw := if 1e-12 < rms_delay then 1 / (5 * rms_delay) else sample_rate
    (rms_delay, coherence_bw)

/-- `np.fft.fft`: `X[k] = sum_n x[n] * exp(-2*pi*1j*k*n/N)`. -/
noncomputable def npFFT (l : List ℂ) : List ℂ :=
  (List.range l.length).map fun (k : ℕ) =>
    ∑ n ∈ Finset.range l.length,
      l.getD n 0 * Complex.exp (-2 * Real.pi * Complex.I * (k : ℂ) * (n : ℂ) / (l.length : ℂ))

/-- `np.fft.fftshift`: move the zero-frequency bin to the centre
(a cyclic roll right by `n // 2`, i.e. a left rotation by `n - n/2`). -/
noncomputable def npFFTshift (l : List ℂ) : List ℂ :=
  l.rotate (l.length - l.length / 2)

/-- The dictionary returned by `calculate_csi_metrics` (the
`src/sdr_lib/sdr_utils.py` variant, whose `cfr_linear` entry the
`csi_analysis.py` copy omits). -/
structure CsiMetrics where
  rms_delay_us : ℝ
  coherence_bw_khz : ℝ
  cfr_db : List ℝ
  cfr_linear : List ℝ
  pdp : List ℝ

/-- `calculate_csi_metrics(cir_window, sample_rate)`: delay metrics from
`csi_core` (converted to microseconds / kHz) together with the
frequency response of the window. -/
noncomputable def calculate_csi_metrics (cir_window : List ℂ) (sample_rate : ℝ) : CsiMetrics :=
  let core := csi_core cir_window sample_rate
  let cfr_complex := npFFTshift (npFFT cir_window)
  let cfr_mag_linear := cfr_complex.map Complex.abs
  let cfr_mag_db := cfr_mag_linear.map fun x => 20 * Real.logb 10 (x + 1e-12)
  ⟨core.1 * 1e6, core.2 / 1e3, cfr_mag_db, cfr_mag_linear, csiPdp cir_window⟩

/-! ## Spatial engine: steering phase, beamforming, angle of arrival
(`src/sdr_lib/sdr_utils.py` lines 185-213, `src/mimo_direction_finding.py`
lines 91-124).  The module-level configuration constants `FREQ`,
`ANTENNA_SPACING_METERS` and `CALIBRATION_PHASE_OFFSET` read by
`calculate_aoa` are taken as parameters. -/

/-- `np.radians`. -/
noncomputable def npRadians (x : ℝ) : ℝ := x * Real.pi / 180

/-- `np.degrees`. -/
noncomputable def npDegrees (x : ℝ) : ℝ := x * 180 / Real.pi

/-- Python float `x % y`: `x - y * floor(x / y)`. -/
noncomputable def pymod (x y : ℝ) : ℝ := x - y * ⌊x / y⌋

/-- `calculate_steering_phase(angle_deg, frequency, spacing_meters)`:
`2*pi*spacing*sin(radians(angle_deg)) / wavelength` with
`wavelength = 3e8 / frequency`. -/
noncomputable def calculate_steering_phase (angle_deg frequency spacing_meters : ℝ) : ℝ :=
  let wavelength := 3e8 / frequency
  let theta_rad := npRadians angle_deg
  2 * Real.pi * spacing_meters * Real.sin theta_rad / wavelength

/-- `calculate_aoa(ch0, ch1)` of `src/mimo_direction_finding.py`,
with the module constants `FREQ`, `ANTENNA_SPACING_METERS` and
`CALIBRATION_PHASE_OFFSET` as the first three parameters.  Returns
`(theta_deg, phase_diff)`. -/
noncomputable def calculate_aoa (freq spacing cal_offset : ℝ) (ch0 ch1 : List ℂ) : ℝ × ℝ :=
  let correlation_vector := List.zipWith (fun s1 s0 => s1 * (starRingEnd ℂ) s0) ch1 ch0
  let avg_correlation := correlation_vector.sum / (correlation_vector.length : ℂ)
  let raw_phase := Complex.arg avg_correlation
  let phase_diff := pymod (raw_phase - cal_offset + Real.pi) (2 * Real.pi) - Real.pi
  let wavelength := 3e8 / freq
  let arg := phase_diff * wavelength / (2 * Real.pi * spacing)
  let arg_clamped := max (-1) (min 1 arg)
  let theta_rad := Real.arcsin arg_clamped
  (npDegrees theta_rad, phase_diff)

/-- `apply_beamforming(ch0, ch1, steering_phase_rad, cal_offset_rad)`:
`(ch0 + ch1 * exp(-1j*(steering+cal))) * 0.707` elementwise. -/
noncomputable def apply_beamforming (ch0_samples ch1_samples : List ℂ)
    (steering_phase_rad cal_offset_rad : ℝ) : List ℂ :=
  let total_phase := steering_phase_rad + cal_offset_rad
  let weight := Complex.exp (-Complex.I * (total_phase : ℂ))
  List.zipWith (fun a b => (a + b * weight) * ((0.707 : ℝ) : ℂ)) ch0_samples ch1_samples

/-- The two-element combining rule of the spec, parameterized by the
amplitude-normalization scale: `(ch0 + ch1*weight) * scale` with
`weight = exp(-1j*(steering_phase + calibration_offset))`. -/
noncomputable def beamform_formula (scale : ℝ) (ch0 ch1 : List ℂ)
    (steering_phase cal_offset : ℝ) : List ℂ :=
  List.zipWith
    (fun a b => (a + b * Complex.exp (-Complex.I * ((steering_phase + cal_offset : ℝ) : ℂ)))
      * ((scale : ℝ) : ℂ)) ch0 ch1

/-- Modelled from the spec: the §4.5 combining rule
`beamformed = (ch0 + ch1*weight) * (1/sqrt 2)`
(amplitude-normalized coherent sum). -/
noncomputable def beamform_spec (ch0 ch1 : List ℂ) (steering_phase cal_offset : ℝ) : List ℂ :=
  beamform_formula (1 / Real.sqrt 2) ch0 ch1 steering_phase cal_offset

/-! ## Calibration / anomaly engine (`rx_analysis_loop` of
`src/object_detection.py`, lines 234-274).  The per-frame detection
state held across loop iterations is made explicit; one call of
`rx_analysis_step` is the body run for the `cfr_db` vector of one qualifying frame. -/

/-- `CALIBRATION_FRAMES = 40`. -/
def CALIBRATION_FRAMES : ℕ := 40

/-- `SIGMA_MULTIPLIER = 2.0`. -/
noncomputable def SIGMA_MULTIPLIER : ℝ := 2.0

/-- `MAX_THRESHOLD = 5.0`. -/
noncomputable def MAX_THRESHOLD : ℝ := 5.0

/-- `np.std`: population standard deviation. -/
noncomputable def listStd (l : List ℝ) : ℝ :=
  Real.sqrt (listMean (l.map fun x => (x - listMean l) ^ 2))

/-- `np.mean(np.array(frames), axis=0)`: elementwise mean of a
(rectangular, non-empty) stack of vectors. -/
noncomputable def meanAxis0 : List (List ℝ) → List ℝ
  | [] => []
  | f :: fs =>
    (fs.foldl (fun acc v => List.zipWith (· + ·) acc v) f).map
      fun x => x / ((fs.length + 1 : ℕ) : ℝ)

/-- Elementwise `np.abs(a - b)`. -/
noncomputable def vAbsSub (a b : List ℝ) : List ℝ :=
  List.zipWith (fun x y => |x - y|) a b

/-- The mutable detection state of `rx_analysis_loop`. -/
structure DetectorState where
  baseline_cfr : Option (List ℝ)
  cal_frames : List (List ℝ)
  frame_count : ℕ
  adaptive_threshold : ℝ

/-- The initial detection state (`baseline_cfr = None`, `cal_frames = []`,
`frame_count = 0`, `adaptive_threshold = 3.0` fallback). -/
noncomputable def initDetectorState : DetectorState := ⟨none, [], 0, 3.0⟩

open Classical in
/-- One qualifying frame of `rx_analysis_loop`: while
`frame_count < CALIBRATION_FRAMES` accumulate the frame (computing the
baseline and the adaptive threshold on the final calibration frame,
clamped below by `1.0` and above by `MAX_THRESHOLD`); afterwards
compare the frame against the immutable baseline, returning the
`is_detected` decision. -/
noncomputable def rx_analysis_step (st : DetectorState) (current_cfr : List ℝ) :
    DetectorState × Option Bool :=
  if st.frame_count < CALIBRATION_FRAMES then
    let cal_frames := st.cal_frames ++ [current_cfr]
    let frame_count := st.frame_count + 1
    if frame_count = CALIBRATION_FRAMES then
      let baseline_cfr := meanAxis0 cal_frames
      let diffs := cal_frames.map fun frame => listMean (vAbsSub frame baseline_cfr)
      let noise_mean := listMean diffs
      let noise_std := listStd diffs
      let t0 := noise_mean + SIGMA_MULTIPLIER * noise_std
      let t1 := if t0 < 1.0 then (1.0 : ℝ) else t0
      let t2 := if MAX_THRESHOLD < t1 then MAX_THRESHOLD else t1
      (⟨some baseline_cfr, cal_frames, frame_count, t2⟩, none)
    else
      (⟨st.baseline_cfr, cal_frames, frame_count, st.adaptive_threshold⟩, none)
  else
    let diff_vector := vAbsSub current_cfr (st.baseline_cfr.getD [])
    let anomaly_score := listMean diff_vector
    (st, some (decide (st.adaptive_threshold < anomaly_score)))

/-- Run the engine over a sequence of qualifying frames. -/
noncomputable def runDetector (st : DetectorState) (frames : List (List ℝ)) : DetectorState :=
  frames.foldl (fun s f => (rx_analysis_step s f).1) st

/-- The per-frame mean absolute deviation from the baseline over the
calibration frames, as computed on the final calibration frame. -/
noncomputable def calibDeviations (frames : List (List ℝ)) : List ℝ :=
  frames.map fun frame => listMean (vAbsSub frame (meanAxis0 frames))

/-- `noise_mean`: mean of the calibration deviations. -/
noncomputable def calibNoiseMean (frames : List (List ℝ)) : ℝ :=
  listMean (calibDeviations frames)

/-- `noise_std`: standard deviation of the calibration deviations. -/
noncomputable def calibNoiseStd (frames : List (List ℝ)) : ℝ :=
  listStd (calibDeviations frames)

/-! ## Helper lemmas -/

theorem npCorrelateValid_length (a v : List ℂ) :
    (npCorrelateValid a v).length = a.length - v.length + 1 := by
  simp [npCorrelateValid]

/-- C7: for every received block at least as long as the probe, the
valid-mode correlation sequence of the matched-filter detector has
length exactly `len(received_block) - len(probe) + 1`. -/
theorem c7_correlation_length (rx_chunk probe_sequence : List ℂ)
    (h : probe_sequence.length ≤ rx_chunk.length) :
    ((correlate_and_detect rx_chunk probe_sequence).correlation.length : ℤ)
      = (rx_chunk.length : ℤ) - (probe_sequence.length : ℤ) + 1 := by
  have hlen : (correlate_and_detect rx_chunk probe_sequence).correlation.length
      = rx_chunk.length - probe_sequence.length + 1 := by
    simp [correlate_and_detect, npCorrelateValid_length]
  rw [hlen]
  omega

/-- Witness for C7 at the concrete block `[0,0,0]` and probe `[0]`. -/
theorem c7_correlation_length_witness :
    ((correlate_and_detect [(0 : ℂ), 0, 0] [(0 : ℂ)]).correlation.length : ℤ)
      = (([(0 : ℂ), 0, 0].length : ℕ) : ℤ) - (([(0 : ℂ)].length : ℕ) : ℤ) + 1 :=
  c7_correlation_length [(0 : ℂ), 0, 0] [(0 : ℂ)] (by simp)

/-- C4: whenever fewer than two indices of the power delay profile
exceed 10% of its maximum (in particular for a single isolated
non-zero tap), `calculate_csi_metrics` takes the degenerate branch:
`rms_delay = 0` and `coherence_bw = sample_rate` exactly. -/
theorem c4_csi_degenerate (cir_window : List ℂ) (sample_rate : ℝ)
    (hne : cir_window ≠ []) (hval : (csiValidIndices cir_window).length < 2) :
    (csi_core cir_window sample_rate).1 = 0 ∧
      (csi_core cir_window sample_rate).2 = sample_rate := by
  rw [csi_core, if_pos hval]
  exact ⟨rfl, rfl⟩

/-- Witness for C4 at the single-tap window `[1]`. -/
theorem c4_csi_degenerate_witness :
    (csi_core [(1 : ℂ)] 1e6).1 = 0 ∧ (csi_core [(1 : ℂ)] 1e6).2 = 1e6 := by
  refine c4_csi_degenerate [(1 : ℂ)] 1e6 (by simp) ?_
  have h1 : csiPdp [(1 : ℂ)] = [1] := by
    simp [csiPdp]
  have h2 : csiThresh [(1 : ℂ)] = 1 * 0.1 := by
    rw [csiThresh, h1]
    simp [npMax]
  have : csiValidIndices [(1 : ℂ)] = [0] := by
    rw [csiValidIndices, h1, h2]
    norm_num [npWhere]
  rw [this]
  norm_num

theorem npDegrees_arcsin_mem (x : ℝ) :
    npDegrees (Real.arcsin x) ∈ Set.Icc (-90 : ℝ) 90 := by
  have h1 := Real.neg_pi_div_two_le_arcsin x
  have h2 := Real.arcsin_le_pi_div_two x
  have hπ := Real.pi_pos
  constructor
  · rw [npDegrees, le_div_iff hπ]
    nlinarith
  · rw [npDegrees, div_le_iff hπ]
    nlinarith

/-- C8: for non-empty equal-length channel blocks and any positive
spacing, positive carrier frequency and calibration offset,
`calculate_aoa` clamps the arcsin argument (so the embedding applies
`arcsin` only to `[-1,1]`, the clamp being the `max (-1) (min 1 _)`
term in `calculate_aoa`), and the returned angle lies in `[-90, 90]`
degrees. -/
theorem c8_aoa_in_range (freq spacing cal_offset : ℝ) (hf : 0 < freq) (hs : 0 < spacing)
    (ch0 ch1 : List ℂ) (hne : ch0 ≠ []) (hlen : ch0.length = ch1.length) :
    (calculate_aoa freq spacing cal_offset ch0 ch1).1 ∈ Set.Icc (-90 : ℝ) 90 := by
  simp only [calculate_aoa]
  exact npDegrees_arcsin_mem _

/-- Witness for C8 at two singleton channels. -/
theorem c8_aoa_in_range_witness :
    (calculate_aoa 3e8 1 0 [(1 : ℂ)] [(1 : ℂ)]).1 ∈ Set.Icc (-90 : ℝ) 90 :=
  c8_aoa_in_range 3e8 1 0 (by norm_num) (by norm_num) [(1 : ℂ)] [(1 : ℂ)]
    (by simp) (by simp)

/-- C6 counterexample: the code scales the coherent sum by the literal
`0.707`, which differs from the `1/sqrt 2` of the spec, already on the
blocks `ch0 = [1]`, `ch1 = [0]` with steering angle `0` and zero
calibration offset. -/
theorem c6_beamforming_counterexample :
    apply_beamforming [(1 : ℂ)] [(0 : ℂ)] (calculate_steering_phase 0 3e8 1) 0
      ≠ beamform_spec [(1 : ℂ)] [(0 : ℂ)] (calculate_steering_phase 0 3e8 1) 0 := by
  intro hEq
  simp only [apply_beamforming, beamform_spec, beamform_formula, List.zipWith_cons_cons,
    List.zipWith_nil_right, zero_mul, add_zero, one_mul, List.cons.injEq, and_true] at hEq
  have hre : (0.707 : ℝ) = Real.sqrt 2 / 2 := by
    have := congrArg Complex.re hEq
    simpa using this
  have h2 : Real.sqrt 2 = 1.414 := by linarith
  have h3 := Real.sq_sqrt (by norm_num : (0 : ℝ) ≤ 2)
  rw [h2] at h3
  norm_num at h3

/-- C6 as amended: `apply_beamforming` equals the combining formula of
the spec with the amplitude factor `0.707` (in place of `1/sqrt 2`),
with the steering phase `2*pi*spacing*sin(radians(angle))/wavelength`
computed by `calculate_steering_phase`. -/
theorem c6_beamforming_amended (ch0 ch1 : List ℂ) (angle_deg frequency spacing cal_offset : ℝ) :
    apply_beamforming ch0 ch1 (calculate_steering_phase angle_deg frequency spacing) cal_offset
      = beamform_formula 0.707 ch0 ch1
          (2 * Real.pi * spacing * Real.sin (npRadians angle_deg) / (3e8 / frequency))
          cal_offset := by
  rfl

theorem runDetector_append (st : DetectorState) (fs gs : List (List ℝ)) :
    runDetector st (fs ++ gs) = runDetector (runDetector st fs) gs := by
  simp [runDetector]

/-- During calibration (strictly fewer than `CALIBRATION_FRAMES` frames
seen) the engine has no baseline, accumulates the frames in order and
keeps the fallback threshold. -/
theorem runDetector_calibrating (fs : List (List ℝ)) (h : fs.length < CALIBRATION_FRAMES) :
    runDetector initDetectorState fs = ⟨none, fs, fs.length, 3.0⟩ := by
  induction fs using List.reverseRecOn with
  | nil => rfl
  | append_singleton l a ih =>
    have hl : l.length < CALIBRATION_FRAMES := by
      simp only [List.length_append, List.length_singleton] at h
      omega
    rw [runDetector_append, ih hl]
    have h40 : l.length + 1 ≠ CALIBRATION_FRAMES := by
      simp only [List.length_append, List.length_singleton] at h
      omega
    simp only [runDetector, List.foldl_cons, List.foldl_nil, rx_analysis_step, hl, if_true,
      if_pos hl, if_neg h40]
    simp

/-- In monitoring (at least `CALIBRATION_FRAMES` frames seen), one step
leaves the state untouched. -/
theorem rx_analysis_step_monitoring (st : DetectorState) (f : List ℝ)
    (h : ¬ st.frame_count < CALIBRATION_FRAMES) :
    (rx_analysis_step st f).1 = st := by
  simp [rx_analysis_step, h]

theorem runDetector_monitoring (st : DetectorState) (more : List (List ℝ))
    (h : ¬ st.frame_count < CALIBRATION_FRAMES) :
    runDetector st more = st := by
  induction more with
  | nil => rfl
  | cons f fs ih =>
    simp only [runDetector, List.foldl_cons]
    rw [rx_analysis_step_monitoring st f h]
    exact ih

/-- The two clamping conditionals of `rx_analysis_step` agree with
`clamp(t0, 1.0, MAX_THRESHOLD)`. -/
theorem threshClampEq (t0 : ℝ) :
    (if MAX_THRESHOLD < (if t0 < 1.0 then (1.0 : ℝ) else t0) then MAX_THRESHOLD
      else (if t0 < 1.0 then (1.0 : ℝ) else t0)) = min MAX_THRESHOLD (max 1 t0) := by
  by_cases h1 : t0 < 1.0
  · rw [if_pos h1, if_neg (by rw [MAX_THRESHOLD]; norm_num)]
    rw [max_eq_left (by linarith), min_eq_right]
    · norm_num
    · rw [MAX_THRESHOLD]; norm_num
  · rw [if_neg h1]
    push_neg at h1
    rw [max_eq_right (by linarith)]
    by_cases h5 : MAX_THRESHOLD < t0
    · rw [if_pos h5, min_eq_left (le_of_lt h5)]
    · rw [if_neg h5, min_eq_right (le_of_not_lt h5)]

/-- C5: on the frame completing calibration (the 40th qualifying frame,
`CALIBRATION_FRAMES = 40`), the baseline of the engine becomes the
elementwise mean of the 40 accumulated dB vectors and the decision
threshold becomes `clamp(noise_mean + SIGMA_MULTIPLIER * noise_std,
1.0, MAX_THRESHOLD)`; afterwards the whole state — in particular the
baseline — is never mutated again: the engine never returns to
calibration. -/
theorem c5_calibration_engine (frames : List (List ℝ))
    (hlen : frames.length = CALIBRATION_FRAMES) :
    (runDetector initDetectorState frames).baseline_cfr = some (meanAxis0 frames) ∧
    (runDetector initDetectorState frames).adaptive_threshold
      = min MAX_THRESHOLD
          (max 1 (calibNoiseMean frames + SIGMA_MULTIPLIER * calibNoiseStd frames)) ∧
    (runDetector initDetectorState frames).frame_count = CALIBRATION_FRAMES ∧
    ∀ more : List (List ℝ),
      runDetector (runDetector initDetectorState frames) more
        = runDetector initDetectorState frames := by
  obtain ⟨fs, a, rfl⟩ : ∃ fs a, frames = fs ++ [a] := by
    rcases List.eq_nil_or_concat frames with h | ⟨fs, a, h⟩
    · rw [h] at hlen; simp [CALIBRATION_FRAMES] at hlen
    · exact ⟨fs, a, by simpa [List.concat_eq_append] using h⟩
  have hfs : fs.length + 1 = CALIBRATION_FRAMES := by
    simpa using hlen
  have hlt : fs.length < CALIBRATION_FRAMES := by omega
  have hrun : runDetector initDetectorState (fs ++ [a])
      = (rx_analysis_step ⟨none, fs, fs.length, 3.0⟩ a).1 := by
    rw [runDetector_append, runDetector_calibrating fs hlt]
    simp [runDetector]
  have hstep : (rx_analysis_step ⟨none, fs, fs.length, 3.0⟩ a).1
      = ⟨some (meanAxis0 (fs ++ [a])), fs ++ [a], CALIBRATION_FRAMES,
          min MAX_THRESHOLD
            (max 1 (calibNoiseMean (fs ++ [a]) + SIGMA_MULTIPLIER * calibNoiseStd (fs ++ [a])))⟩ := by
    dsimp only [rx_analysis_step]
    rw [if_pos hlt, if_pos hfs]
    dsimp only [calibNoiseMean, calibNoiseStd, calibDeviations]
    simp only [DetectorState.mk.injEq]
    exact ⟨trivial, trivial, hfs, threshClampEq _⟩
  rw [hrun, hstep]
  refine ⟨rfl, rfl, rfl, ?_⟩
  intro more
  exact runDetector_monitoring _ more (by simp [CALIBRATION_FRAMES])

/-- Witness for C5 at 40 copies of the frame `[0]`. -/
theorem c5_calibration_engine_witness :
    (runDetector initDetectorState (List.replicate 40 [(0 : ℝ)])).baseline_cfr
        = some (meanAxis0 (List.replicate 40 [(0 : ℝ)])) ∧
    (runDetector initDetectorState (List.replicate 40 [(0 : ℝ)])).adaptive_threshold
      = min MAX_THRESHOLD
          (max 1 (calibNoiseMean (List.replicate 40 [(0 : ℝ)])
            + SIGMA_MULTIPLIER * calibNoiseStd (List.replicate 40 [(0 : ℝ)]))) ∧
    (runDetector initDetectorState (List.replicate 40 [(0 : ℝ)])).frame_count
        = CALIBRATION_FRAMES ∧
    ∀ more : List (List ℝ),
      runDetector (runDetector initDetectorState (List.replicate 40 [(0 : ℝ)])) more
        = runDetector initDetectorState (List.replicate 40 [(0 : ℝ)]) :=
  c5_calibration_engine (List.replicate 40 [(0 : ℝ)]) (by simp [CALIBRATION_FRAMES])

theorem npArgmax_lt_length : ∀ l : List ℝ, l ≠ [] → npArgmax l < l.length
  | [x], _ => by simp [npArgmax]
  | x :: y :: xs, _ => by
    have ih := npArgmax_lt_length (y :: xs) (by simp)
    by_cases h : (y :: xs).getD (npArgmax (y :: xs)) 0 > x
    · rw [npArgmax, if_pos h]
      simpa using ih
    · rw [npArgmax, if_neg h]
      simp

theorem getD_zero_nonneg (l : List ℝ) (h : ∀ x ∈ l, 0 ≤ x) (n : ℕ) : 0 ≤ l.getD n 0 := by
  rw [List.getD_eq_getElem?_getD]
  cases he : l[n]? with
  | none => simp
  | some x => simpa using h x (List.getElem?_mem he)

theorem listMean_nonneg (l : List ℝ) (h : ∀ x ∈ l, 0 ≤ x) : 0 ≤ listMean l :=
  div_nonneg (List.sum_nonneg h) (Nat.cast_nonneg _)

theorem mag_mem_nonneg (corr : List ℂ) : ∀ x ∈ corr.map Complex.abs, 0 ≤ x := by
  intro x hx
  obtain ⟨z, _, rfl⟩ := List.mem_map.mp hx
  exact Complex.abs.nonneg z

/-- The noise floor computed by `correlate_and_detect` is non-negative
(it is either the `1e-9` fallback or a mean of magnitudes). -/
theorem correlate_noise_floor_nonneg (rx probe : List ℂ) :
    0 ≤ (correlate_and_detect rx probe).noise_floor := by
  dsimp only [correlate_and_detect]
  split
  · split
    · exact listMean_nonneg _ fun x hx =>
        mag_mem_nonneg _ x (List.take_subset _ _ hx)
    · norm_num
  · norm_num

/-- C3 as amended: for every received block at least as long as the
(non-empty) probe, the `peak_idx` of the detection result lies in
`[0, len(correlation))`, and `snr_db` is finite whenever the peak
correlation magnitude is non-zero.  (The unamended claim fails: an
all-zero block has `peak_val = 0` and `snr_db = 10*log10(0) = -inf`,
see the counterexample.) -/
theorem c3_detection_invariants (rx_chunk probe_sequence : List ℂ)
    (hp : probe_sequence ≠ []) (h : probe_sequence.length ≤ rx_chunk.length) :
    (correlate_and_detect rx_chunk probe_sequence).peak_idx
        < (correlate_and_detect rx_chunk probe_sequence).correlation.length ∧
    ((correlate_and_detect rx_chunk probe_sequence).peak_val ≠ 0 →
      (correlate_and_detect rx_chunk probe_sequence).snr_db ≠ ⊥ ∧
      (correlate_and_detect rx_chunk probe_sequence).snr_db ≠ ⊤) := by
  have hnf := correlate_noise_floor_nonneg rx_chunk probe_sequence
  constructor
  · have hne : (npCorrelateValid rx_chunk probe_sequence).map Complex.abs ≠ [] := by
      have : (npCorrelateValid rx_chunk probe_sequence).length = rx_chunk.length - probe_sequence.length + 1 :=
        npCorrelateValid_length _ _
      intro hcon
      rw [List.map_eq_nil_iff] at hcon
      rw [hcon] at this
      simp at this
    have := npArgmax_lt_length _ hne
    rw [List.length_map] at this
    exact this
  · intro hpv
    have hval_nonneg : 0 ≤ (correlate_and_detect rx_chunk probe_sequence).peak_val := by
      dsimp only [correlate_and_detect]
      exact getD_zero_nonneg _ (mag_mem_nonneg _) _
    have hpos : 0 < (correlate_and_detect rx_chunk probe_sequence).peak_val :=
      lt_of_le_of_ne hval_nonneg (Ne.symm hpv)
    have hlin : 0 < (correlate_and_detect rx_chunk probe_sequence).peak_val
        / ((correlate_and_detect rx_chunk probe_sequence).noise_floor + 1e-12) :=
      div_pos hpos (by nlinarith)
    have hdb : (correlate_and_detect rx_chunk probe_sequence).snr_db
        = (10 : EReal) * npLog10E ((correlate_and_detect rx_chunk probe_sequence).peak_val
            / ((correlate_and_detect rx_chunk probe_sequence).noise_floor + 1e-12)) := by
      rfl
    rw [hdb, npLog10E, if_neg (not_le.mpr hlin)]
    have h10 : (10 : EReal) = ((10 : ℝ) : EReal) := by norm_cast
    rw [h10, ← EReal.coe_mul]
    exact ⟨EReal.coe_ne_bot _, EReal.coe_ne_top _⟩

/-- Witness for C3 (amended) at the block `[1]` and probe `[1]`. -/
theorem c3_detection_invariants_witness :
    (correlate_and_detect [(1 : ℂ)] [(1 : ℂ)]).peak_idx
        < (correlate_and_detect [(1 : ℂ)] [(1 : ℂ)]).correlation.length ∧
    ((correlate_and_detect [(1 : ℂ)] [(1 : ℂ)]).peak_val ≠ 0 →
      (correlate_and_detect [(1 : ℂ)] [(1 : ℂ)]).snr_db ≠ ⊥ ∧
      (correlate_and_detect [(1 : ℂ)] [(1 : ℂ)]).snr_db ≠ ⊤) :=
  c3_detection_invariants [(1 : ℂ)] [(1 : ℂ)] (by simp) (by simp)

theorem getD_replicate_zero (n i : ℕ) : (List.replicate n (0 : ℂ)).getD i 0 = 0 := by
  rw [List.getD_eq_getElem?_getD, List.getElem?_replicate]
  split <;> simp

theorem npHanning_length (M : ℕ) : (npHanning M).length = M := by
  rw [npHanning]
  split <;> simp_all

theorem generate_chirp_probe_length (n : ℕ) : (generate_chirp_probe n).length = n := by
  dsimp only [generate_chirp_probe]
  rw [List.length_map, List.length_zipWith, List.length_map, List.length_range,
    npHanning_length, min_self]

/-- C3 counterexample: on the all-zero block of the same length as the probe, the
matched-filter detector produces `snr_db = -inf`, so `snr_db` is not
always finite. -/
theorem c3_counterexample :
    (correlate_and_detect (List.replicate 256 (0 : ℂ)) (generate_chirp_probe 256)).snr_db
      = ⊥ := by
  have hcorr : npCorrelateValid (List.replicate 256 (0 : ℂ)) (generate_chirp_probe 256)
      = [0] := by
    rw [npCorrelateValid, List.length_replicate, generate_chirp_probe_length]
    have h1 : (256 : ℕ) - 256 + 1 = 1 := by norm_num
    rw [h1]
    have h2 : List.range 1 = [0] := rfl
    rw [h2, List.map_cons, List.map_nil]
    congr 1
    apply Finset.sum_eq_zero
    intro i _
    rw [getD_replicate_zero, zero_mul]
  dsimp only [correlate_and_detect]
  rw [hcorr]
  have hmag : List.map Complex.abs [(0 : ℂ)] = [(0 : ℝ)] := by simp
  rw [hmag]
  have hargmax : npArgmax [(0 : ℝ)] = 0 := by simp [npArgmax]
  rw [hargmax]
  simp only [List.getD_cons_zero]
  rw [if_neg (by omega : ¬ (20 : ℕ) < 0), zero_div, npLog10E, if_pos le_rfl]
  exact EReal.mul_bot_of_pos (by norm_num)

theorem le_foldl_max (l : List ℝ) (a : ℝ) : a ≤ l.foldl max a := by
  induction l generalizing a with
  | nil => exact le_refl a
  | cons x xs ih => exact le_trans (le_max_left a x) (ih (max a x))

theorem mem_le_foldl_max (l : List ℝ) (a x : ℝ) (hx : x ∈ l) : x ≤ l.foldl max a := by
  induction l generalizing a with
  | nil => simp at hx
  | cons y ys ih =>
    rcases List.mem_cons.mp hx with rfl | hmem
    · exact le_trans (le_max_right a x) (le_foldl_max ys (max a x))
    · exact ih _ hmem

theorem foldl_max_le (l : List ℝ) (a c : ℝ) (ha : a ≤ c) (h : ∀ x ∈ l, x ≤ c) :
    l.foldl max a ≤ c := by
  induction l generalizing a with
  | nil => exact ha
  | cons x xs ih =>
    exact ih (max a x) (max_le ha (h x (List.mem_cons_self x xs)))
      fun y hy => h y (List.mem_cons_of_mem x hy)

theorem le_npMax (l : List ℝ) (x : ℝ) (h : x ∈ l) : x ≤ npMax l := by
  cases l with
  | nil => simp at h
  | cons y ys =>
    rw [npMax]
    rcases List.mem_cons.mp h with rfl | hmem
    · exact le_foldl_max ys x
    · exact mem_le_foldl_max ys y x hmem

theorem npMax_le (l : List ℝ) (c : ℝ) (h : ∀ x ∈ l, x ≤ c) (hne : l ≠ []) : npMax l ≤ c := by
  cases l with
  | nil => exact absurd rfl hne
  | cons y ys =>
    rw [npMax]
    exact foldl_max_le ys y c (h y (List.mem_cons_self y ys))
      fun x hx => h x (List.mem_cons_of_mem y hx)

theorem npWhere_nil (P : ℝ → Prop) : npWhere P [] = [] := by rw [npWhere]

open Classical in
theorem npWhere_cons (P : ℝ → Prop) (x : ℝ) (xs : List ℝ) :
    npWhere P (x :: xs)
      = (if P x then [0] else []) ++ (npWhere P xs).map fun (i : ℕ) => i + 1 := by
  rw [npWhere]

theorem npWhere_append (P : ℝ → Prop) (l1 l2 : List ℝ) :
    npWhere P (l1 ++ l2)
      = npWhere P l1 ++ (npWhere P l2).map fun (i : ℕ) => i + l1.length := by
  induction l1 with
  | nil => simp [npWhere_nil]
  | cons x xs ih =>
    have hmm : ∀ w : List ℕ,
        (w.map fun (j : ℕ) => j + xs.length).map (fun (j : ℕ) => j + 1)
          = w.map fun (j : ℕ) => j + (xs.length + 1) := by
      intro w
      rw [List.map_map]
      apply List.map_congr_left
      intro j _
      simp only [Function.comp_apply]
      omega
    rw [List.cons_append, npWhere_cons, ih, npWhere_cons, List.map_append, hmm,
      List.length_cons, List.append_assoc]

theorem npWhere_replicate_zero (P : ℝ → Prop) (hP : ¬ P 0) (n : ℕ) :
    npWhere P (List.replicate n (0 : ℝ)) = [] := by
  induction n with
  | zero => rw [List.replicate_zero, npWhere_nil]
  | succ m ih => rw [List.replicate_succ, npWhere_cons, if_neg hP, ih]; rfl

/-- C9: a CIR window with exactly two non-zero taps of equal power
separated by `d + 1` samples yields an RMS delay spread of exactly
`((d+1)/2) / sample_rate` (half the separation, in seconds). -/
theorem c9_csi_two_tap (i d k : ℕ) (a b : ℂ) (sample_rate : ℝ) (hr : 0 < sample_rate)
    (hab : Complex.abs a ^ 2 = Complex.abs b ^ 2) (ha : a ≠ 0) :
    (csi_core
        (List.replicate i 0 ++ a :: (List.replicate d 0 ++ b :: List.replicate k 0))
        sample_rate).1
      = (((d + 1 : ℕ) : ℝ) / 2) / sample_rate := by
  set cir : List ℂ := List.replicate i 0 ++ a :: (List.replicate d 0 ++ b :: List.replicate k 0)
    with hcir
  set p := Complex.abs a ^ 2 with hp
  have hppos : 0 < p := by
    rw [hp]
    exact pow_pos (Complex.abs.pos ha) 2
  have hpdp : csiPdp cir
      = List.replicate i 0 ++ p :: (List.replicate d 0 ++ p :: List.replicate k 0) := by
    rw [hcir, csiPdp]
    simp only [List.map_append, List.map_cons, List.map_replicate]
    rw [← hab]
    norm_num
  have hmax : npMax (csiPdp cir) = p := by
    apply le_antisymm
    · apply npMax_le
      · intro x hx
        rw [hpdp] at hx
        simp only [List.mem_append, List.mem_cons, List.mem_replicate] at hx
        rcases hx with ⟨_, rfl⟩ | rfl | ⟨_, rfl⟩ | rfl | ⟨_, rfl⟩ <;>
          first | exact le_of_lt hppos | exact le_refl p
      · rw [hpdp]
        simp
    · apply le_npMax
      rw [hpdp]
      simp
  have hthresh : csiThresh cir = p * 0.1 := by rw [csiThresh, hmax]
  have hP0 : ¬ (p * 0.1 < (0 : ℝ)) := by nlinarith
  have hPp : p * 0.1 < p := by nlinarith
  have hvalid : csiValidIndices cir = [i, d + 1 + i] := by
    rw [csiValidIndices, hthresh, hpdp, npWhere_append,
      npWhere_replicate_zero _ hP0, npWhere_cons, if_pos hPp, npWhere_append,
      npWhere_replicate_zero _ hP0, npWhere_cons, if_pos hPp,
      npWhere_replicate_zero _ hP0]
    simp [Nat.add_comm, Nat.add_assoc, Nat.add_left_comm]
  have hgetD1 : (csiPdp cir).getD i 0 = p := by
    rw [hpdp, List.getD_eq_getElem?_getD, List.getElem?_append_right (by simp)]
    simp
  have hgetD2 : (csiPdp cir).getD (d + 1 + i) 0 = p := by
    rw [hpdp, List.getD_eq_getElem?_getD,
      List.getElem?_append_right (by simp)]
    have h1 : d + 1 + i - (List.replicate i (0 : ℝ)).length = d + 1 := by
      simp
    rw [h1]
    rw [List.getElem?_cons_succ, List.getElem?_append_right (by simp)]
    simp
  rw [csi_core]
  rw [if_neg (by rw [hvalid]; simp)]
  simp only [hvalid, List.map_cons, List.map_nil, List.headD_cons, hgetD1, hgetD2]
  have hD1 : ((i : ℝ) - (i : ℝ)) / sample_rate = 0 := by
    rw [sub_self, zero_div]
  have hD2 : (((d + 1 + i : ℕ) : ℝ) - (i : ℝ)) / sample_rate
      = ((d : ℝ) + 1) / sample_rate := by
    push_cast
    ring
  rw [hD1, hD2]
  set D := ((d : ℝ) + 1) / sample_rate with hD
  have hDnn : 0 ≤ D := by
    rw [hD]
    positivity
  simp only [List.zipWith_cons_cons, List.zipWith_nil_right, List.zipWith_nil_left,
    List.sum_cons, List.sum_nil]
  have hsum : (p * 0 + (p * D + 0)) / (p + (p + 0)) = D / 2 := by
    field_simp
    ring
  rw [hsum]
  have harg : (p * (0 - D / 2) ^ 2 + (p * (D - D / 2) ^ 2 + 0)) / (p + (p + 0))
      = (D / 2) ^ 2 := by
    field_simp
    ring
  rw [harg, Real.sqrt_sq (by positivity), hD]
  push_cast
  ring

/-- Witness for C9 at the window `[1, 1]` (two adjacent unit taps). -/
theorem c9_csi_two_tap_witness :
    (csi_core
        (List.replicate 0 0 ++ (1 : ℂ) :: (List.replicate 0 0 ++ (1 : ℂ) :: List.replicate 0 0))
        1).1
      = (((0 + 1 : ℕ) : ℝ) / 2) / 1 :=
  c9_csi_two_tap 0 0 0 1 1 1 (by norm_num) rfl one_ne_zero

theorem everyNth_nil (step : ℕ) : everyNth [] step = [] := by rw [everyNth]

theorem everyNth_cons (x : CQ) (xs : List CQ) (step : ℕ) :
    everyNth (x :: xs) step = x :: everyNth (xs.drop (step - 1)) step := by rw [everyNth]

/-- Downsampling an `step`-fold sample repetition at any in-symbol
offset `r` recovers the symbol sequence exactly. -/
theorem everyNth_flatMap_replicate (L : List CQ) (step r : ℕ) (hr : r < step) :
    everyNth ((L.flatMap fun w => List.replicate step w).drop r) step = L := by
  induction L with
  | nil => simp [everyNth_nil]
  | cons x L ih =>
    rw [List.flatMap_cons, List.drop_append_of_le_length (by simp; omega),
      List.drop_replicate, show step - r = (step - r - 1) + 1 by omega,
      List.replicate_succ, List.cons_append, everyNth_cons]
    congr 1
    rw [List.drop_append_eq_append_drop, List.drop_replicate, List.length_replicate,
      show step - r - 1 - (step - 1) = 0 by omega, List.replicate_zero, List.nil_append,
      show step - 1 - (step - r - 1) = r by omega]
    exact ih

theorem sliceStep_ge (L : List CQ) (z : CQ) (s o step : ℕ) (hso : s ≤ o)
    (ho : o - s < step) :
    sliceStep (List.replicate s z ++ L.flatMap fun w => List.replicate step w) o step
      = L := by
  rw [sliceStep, List.drop_append_eq_append_drop, List.drop_replicate, List.length_replicate,
    show s - o = 0 by omega, List.replicate_zero, List.nil_append]
  exact everyNth_flatMap_replicate L step (o - s) ho

theorem sliceStep_lt (L : List CQ) (z : CQ) (s o step : ℕ) (hos : o < s)
    (hs : s - o ≤ step) :
    sliceStep (List.replicate s z ++ L.flatMap fun w => List.replicate step w) o step
      = z :: L := by
  rw [sliceStep, List.drop_append_of_le_length (by simp; omega), List.drop_replicate,
    show s - o = (s - o - 1) + 1 by omega, List.replicate_succ, List.cons_append,
    everyNth_cons]
  congr 1
  rw [List.drop_append_eq_append_drop, List.drop_replicate, List.length_replicate,
    show s - o - 1 - (step - 1) = 0 by omega, List.replicate_zero, List.nil_append,
    show step - 1 - (s - o - 1) = step - (s - o) by omega]
  exact everyNth_flatMap_replicate L step (step - (s - o)) (by omega)

theorem map_flatMap_replicate (f : CQ → CQ) (L : List CQ) (n : ℕ) :
    (L.flatMap fun w => List.replicate n w).map f
      = (L.map f).flatMap fun w => List.replicate n w := by
  induction L with
  | nil => rfl
  | cons x xs ih =>
    rw [List.flatMap_cons, List.map_append, List.map_replicate, List.map_cons,
      List.flatMap_cons, ih]

theorem modulate_hw_eq :
    modulate_dbpsk "Hello World"
      = hwScaledSymbols.flatMap fun w => List.replicate SPS w := by
  rw [modulate_dbpsk, hwScaledSymbols, map_flatMap_replicate]

set_option maxRecDepth 40000 in
theorem decode_hw : decodeCandidate hwScaledSymbols = some "Hello World" := by
  with_unfolding_all decide

set_option maxRecDepth 40000 in
theorem decode_hw_pad : decodeCandidate (cqZero :: hwScaledSymbols) = some "Hello World" := by
  with_unfolding_all decide

set_option maxRecDepth 40000 in
/-- C1: the DPSK modem round trip.  For the message `"Hello World"` at
`SPS = 100` and every sample offset `s ∈ [0, SPS)`, demodulating the
waveform `modulate_dbpsk "Hello World"` prefixed by `s` zero samples
(no noise) recovers exactly `"Hello World"`. -/
theorem c1_modem_round_trip (s : ℕ) (hs : s < SPS) :
    demodulate_dbpsk_robust (List.replicate s cqZero ++ modulate_dbpsk "Hello World")
      = "Hello World" := by
  have hstep : ∀ (best : String × ℤ) (o : ℕ), o < SPS →
      demodStep best
          (sliceStep (List.replicate s cqZero ++ modulate_dbpsk "Hello World") o SPS)
        = demodStep best hwScaledSymbols := by
    intro best o ho
    rw [modulate_hw_eq]
    by_cases hso : s ≤ o
    · rw [sliceStep_ge hwScaledSymbols cqZero s o SPS hso (by omega)]
    · rw [sliceStep_lt hwScaledSymbols cqZero s o SPS (by omega) (by omega)]
      rw [demodStep, demodStep, decode_hw, decode_hw_pad]
  rw [demodulate_dbpsk_robust]
  have hoff : demodOffsets = [0, 10, 20, 30, 40, 50, 60, 70, 80, 90] := rfl
  rw [hoff]
  simp only [List.foldl_cons, List.foldl_nil]
  rw [hstep _ 0 (by norm_num [SPS]), hstep _ 10 (by norm_num [SPS]),
    hstep _ 20 (by norm_num [SPS]), hstep _ 30 (by norm_num [SPS]),
    hstep _ 40 (by norm_num [SPS]), hstep _ 50 (by norm_num [SPS]),
    hstep _ 60 (by norm_num [SPS]), hstep _ 70 (by norm_num [SPS]),
    hstep _ 80 (by norm_num [SPS]), hstep _ 90 (by norm_num [SPS])]
  have h1 : demodStep ("", -1) hwScaledSymbols = ("Hello World", 11) := by
    with_unfolding_all decide
  have h2 : demodStep ("Hello World", 11) hwScaledSymbols = ("Hello World", 11) := by
    with_unfolding_all decide
  rw [h1, h2, h2, h2, h2, h2, h2, h2, h2, h2]

/-- Witness for C1 at the offset `s = 37`. -/
theorem c1_modem_round_trip_witness :
    demodulate_dbpsk_robust (List.replicate 37 cqZero ++ modulate_dbpsk "Hello World")
      = "Hello World" :=
  c1_modem_round_trip 37 (by norm_num [SPS])

theorem bits_to_text_len : ∀ l : List ℕ, 8 * (bits_to_text l).length ≤ l.length
  | b0 :: b1 :: b2 :: b3 :: b4 :: b5 :: b6 :: b7 :: rest => by
    have ih := bits_to_text_len rest
    rw [bits_to_text]
    simp only [List.length_cons]
    omega
  | [] => by simp [bits_to_text]
  | [b0] => by simp [bits_to_text]
  | [b0, b1] => by simp [bits_to_text]
  | [b0, b1, b2] => by simp [bits_to_text]
  | [b0, b1, b2, b3] => by simp [bits_to_text]
  | [b0, b1, b2, b3, b4] => by simp [bits_to_text]
  | [b0, b1, b2, b3, b4, b5] => by simp [bits_to_text]
  | [b0, b1, b2, b3, b4, b5, b6] => by simp [bits_to_text]

/-- A length-gated, printability-filtered decode is at most 100
printable characters. -/
theorem clean_text_spec (bits : List ℕ) (m : ℕ) (hm : m ≤ 100) :
    (String.mk ((bits_to_text (bits.take (m * 8))).filter
      fun c => decide (32 ≤ c.toNat ∧ c.toNat ≤ 126))).length ≤ 100 ∧
    ∀ c ∈ (String.mk ((bits_to_text (bits.take (m * 8))).filter
      fun c => decide (32 ≤ c.toNat ∧ c.toNat ≤ 126))).data,
        32 ≤ c.toNat ∧ c.toNat ≤ 126 := by
  constructor
  · have h1 := List.length_filter_le
      (fun c => decide (32 ≤ c.toNat ∧ c.toNat ≤ 126)) (bits_to_text (bits.take (m * 8)))
    have h2 := bits_to_text_len (bits.take (m * 8))
    have h3 := List.length_take_le (m * 8) bits
    show ((bits_to_text (bits.take (m * 8))).filter
      fun c => decide (32 ≤ c.toNat ∧ c.toNat ≤ 126)).length ≤ 100
    omega
  · intro c hc
    exact of_decide_eq_true (List.mem_filter.mp hc).2

/-- Every decoded candidate of the robust demodulator is at most 100
printable-ASCII characters. -/
theorem decodeCandidate_spec (raw : List CQ) (t : String)
    (h : decodeCandidate raw = some t) :
    t.length ≤ 100 ∧ ∀ c ∈ t.data, 32 ≤ c.toNat ∧ c.toNat ≤ 126 := by
  rw [decodeCandidate] at h
  split at h
  · exact absurd h (by simp)
  dsimp only at h
  split at h
  · exact absurd h (by simp)
  split at h
  · exact absurd h (by simp)
  split at h
  · exact absurd h (by simp)
  rename_i sync_rel_idx heq hlen8
  split at h
  · exact absurd h (by simp)
  rename_i hmsg
  split at h
  · exact absurd h (by simp)
  rw [Option.some.injEq] at h
  subst h
  exact clean_text_spec _ _ (by omega)

/-- The best-so-far accumulator of the demodulator keeps the
printable-and-short invariant. -/
theorem demod_fold_invariant (rx_chunk : List CQ) (offs : List ℕ) (best : String × ℤ)
    (hb : best.1.length ≤ 100 ∧ ∀ c ∈ best.1.data, 32 ≤ c.toNat ∧ c.toNat ≤ 126) :
    (offs.foldl (fun b o => demodStep b (sliceStep rx_chunk o SPS)) best).1.length ≤ 100 ∧
    ∀ c ∈ (offs.foldl (fun b o => demodStep b (sliceStep rx_chunk o SPS)) best).1.data,
      32 ≤ c.toNat ∧ c.toNat ≤ 126 := by
  induction offs generalizing best with
  | nil => exact hb
  | cons o os ih =>
    rw [List.foldl_cons]
    apply ih
    rcases hdc : decodeCandidate (sliceStep rx_chunk o SPS) with _ | t
    · rw [demodStep, hdc]
      exact hb
    · rw [demodStep, hdc]
      have ht := decodeCandidate_spec _ _ hdc
      dsimp only
      split
      · exact ht
      · exact hb

theorem demod_fold_none (rx_chunk : List CQ) (offs : List ℕ) (best : String × ℤ)
    (hnone : ∀ o ∈ offs, decodeCandidate (sliceStep rx_chunk o SPS) = none) :
    offs.foldl (fun b o => demodStep b (sliceStep rx_chunk o SPS)) best = best := by
  induction offs generalizing best with
  | nil => rfl
  | cons o os ih =>
    rw [List.foldl_cons, demodStep, hnone o (List.mem_cons_self o os)]
    exact ih _ fun o' ho' => hnone o' (List.mem_cons_of_mem o ho')

/-- C10: for every input chunk the demodulated output has at most 100
characters, all printable ASCII (`32 ≤ ord(c) ≤ 126`); and when every
candidate offset is rejected by the preamble/sync/length gates the
output is the empty string. -/
theorem c10_demod_output (rx_chunk : List CQ) :
    (demodulate_dbpsk_robust rx_chunk).length ≤ 100 ∧
    (∀ c ∈ (demodulate_dbpsk_robust rx_chunk).data, 32 ≤ c.toNat ∧ c.toNat ≤ 126) ∧
    ((∀ o ∈ demodOffsets, decodeCandidate (sliceStep rx_chunk o SPS) = none) →
      demodulate_dbpsk_robust rx_chunk = "") := by
  have hinv := demod_fold_invariant rx_chunk demodOffsets ("", -1) (by simp)
  refine ⟨hinv.1, hinv.2, fun hnone => ?_⟩
  rw [demodulate_dbpsk_robust, demod_fold_none rx_chunk demodOffsets ("", -1) hnone]

/-- Witness for C10 at the empty chunk. -/
theorem c10_demod_output_witness :
    (demodulate_dbpsk_robust []).length ≤ 100 ∧ demodulate_dbpsk_robust [] = "" :=
  ⟨(c10_demod_output []).1, (c10_demod_output []).2.2 (by
    intro o ho
    rw [sliceStep, List.drop_nil, everyNth_nil]
    rfl)⟩

theorem sum_map_normSq_cast (l : List ℂ) :
    (l.map fun z => ((Complex.normSq z : ℝ) : ℂ)).sum
      = (((l.map Complex.normSq).sum : ℝ) : ℂ) := by
  induction l with
  | nil => simp
  | cons x xs ih => simp [ih]

theorem list_sum_pos_of_mem (l : List ℝ) (h0 : ∀ x ∈ l, 0 ≤ x) (x : ℝ)
    (hx : x ∈ l) (hxpos : 0 < x) : 0 < l.sum := by
  induction l with
  | nil => simp at hx
  | cons y ys ih =>
    rw [List.sum_cons]
    rcases List.mem_cons.mp hx with rfl | hmem
    · have : 0 ≤ ys.sum := List.sum_nonneg fun a ha => h0 a (List.mem_cons_of_mem _ ha)
      linarith
    · have h1 : 0 ≤ y := h0 y (List.mem_cons_self _ _)
      have h2 : 0 < ys.sum := ih (fun a ha => h0 a (List.mem_cons_of_mem _ ha)) hmem
      linarith

/-- When `ch1` is `ch0` rotated elementwise by `exp(1j*phi)` (with
`phi` strictly inside `(-pi, pi)`), `calculate_aoa` with zero
calibration offset measures exactly the phase `phi`. -/
theorem calculate_aoa_phase (f d : ℝ) (φ : ℝ) (hφl : -Real.pi < φ) (hφu : φ < Real.pi)
    (ch0 : List ℂ) (hnz : ∃ z ∈ ch0, z ≠ 0) :
    calculate_aoa f d 0 ch0 (ch0.map fun z => z * Complex.exp ((φ : ℂ) * Complex.I))
      = (npDegrees (Real.arcsin (max (-1)
            (min 1 (φ * (3e8 / f) / (2 * Real.pi * d))))), φ) := by
  obtain ⟨z0, hz0mem, hz0⟩ := hnz
  have hne : ch0 ≠ [] := by rintro rfl; simp at hz0mem
  have hnpos : 0 < ch0.length := List.length_pos.mpr hne
  have hcv : List.zipWith (fun s1 s0 => s1 * (starRingEnd ℂ) s0)
      (ch0.map fun z => z * Complex.exp ((φ : ℂ) * Complex.I)) ch0
      = ch0.map fun z => Complex.exp ((φ : ℂ) * Complex.I) * ((Complex.normSq z : ℝ) : ℂ) := by
    rw [List.zipWith_map_left, List.zipWith_same]
    apply List.map_congr_left
    intro z _
    rw [mul_comm z (Complex.exp ((φ : ℂ) * Complex.I)), mul_assoc, Complex.mul_conj]
  have hsum : (ch0.map fun z =>
        Complex.exp ((φ : ℂ) * Complex.I) * ((Complex.normSq z : ℝ) : ℂ)).sum
      = Complex.exp ((φ : ℂ) * Complex.I) * (((ch0.map Complex.normSq).sum : ℝ) : ℂ) := by
    rw [List.sum_map_mul_left, sum_map_normSq_cast]
  have hSpos : 0 < (ch0.map Complex.normSq).sum := by
    refine list_sum_pos_of_mem _ ?_ (Complex.normSq z0) (List.mem_map_of_mem _ hz0mem) ?_
    · intro x hxm
      obtain ⟨w, _, rfl⟩ := List.mem_map.mp hxm
      exact Complex.normSq_nonneg w
    · exact Complex.normSq_pos.mpr hz0
  have havg : (ch0.map fun z =>
        Complex.exp ((φ : ℂ) * Complex.I) * ((Complex.normSq z : ℝ) : ℂ)).sum
        / (((ch0.map fun z =>
            Complex.exp ((φ : ℂ) * Complex.I) * ((Complex.normSq z : ℝ) : ℂ)).length : ℕ) : ℂ)
      = ((((ch0.map Complex.normSq).sum / (ch0.length : ℝ)) : ℝ) : ℂ)
          * Complex.exp ((φ : ℂ) * Complex.I) := by
    rw [hsum, List.length_map]
    push_cast
    ring
  have hargphi : Complex.arg (((((ch0.map Complex.normSq).sum / (ch0.length : ℝ)) : ℝ) : ℂ)
      * Complex.exp ((φ : ℂ) * Complex.I)) = φ := by
    rw [Complex.arg_real_mul _ (div_pos hSpos (by exact_mod_cast hnpos))]
    rw [Complex.exp_mul_I, Complex.arg_cos_add_sin_mul_I ⟨hφl, le_of_lt hφu⟩]
  have hpd : pymod (φ - 0 + Real.pi) (2 * Real.pi) - Real.pi = φ := by
    rw [pymod]
    have h2π : 0 < 2 * Real.pi := by positivity
    have hfloor : ⌊(φ - 0 + Real.pi) / (2 * Real.pi)⌋ = 0 := by
      rw [Int.floor_eq_zero_iff]
      constructor
      · apply div_nonneg _ (le_of_lt h2π)
        linarith
      · rw [div_lt_one h2π]
        linarith
    rw [hfloor]
    push_cast
    ring
  dsimp only [calculate_aoa]
  rw [hcv, havg, hargphi, hpd]

/-- C2: angle round trip.  For every carrier frequency `f > 0` and
spacing `0 < d ≤ wavelength/2`, every true angle
`θ ∈ {-60, -30, 0, 30, 60}` degrees, and every non-empty not-all-zero
block `ch0`, if `ch1` is `ch0` rotated elementwise by
`exp(1j * calculate_steering_phase θ f d)` and the calibration offset
is `0`, then `calculate_aoa` recovers `θ` to within one degree
(in fact exactly). -/
theorem c2_angle_round_trip (f d : ℝ) (hf : 0 < f) (hd : 0 < d)
    (hhalf : d ≤ 3e8 / f / 2) (θ : ℝ)
    (hθ : θ = -60 ∨ θ = -30 ∨ θ = 0 ∨ θ = 30 ∨ θ = 60)
    (ch0 : List ℂ) (hnz : ∃ z ∈ ch0, z ≠ 0) :
    |(calculate_aoa f d 0 ch0
        (ch0.map fun z =>
          z * Complex.exp ((calculate_steering_phase θ f d : ℂ) * Complex.I))).1
      - θ| ≤ 1 := by
  have hπ := Real.pi_pos
  have hwl : 0 < 3e8 / f := by positivity
  have hs3sq := Real.sq_sqrt (by norm_num : (0 : ℝ) ≤ 3)
  have hs3nn := Real.sqrt_nonneg 3
  have hs3 : Real.sqrt 3 < 2 := by nlinarith
  have h1s3 : (1 : ℝ) ≤ Real.sqrt 3 := by nlinarith
  set θr := θ * Real.pi / 180 with hθr
  have hcase : |Real.sin θr| ≤ Real.sqrt 3 / 2 ∧ -(Real.pi / 2) ≤ θr ∧ θr ≤ Real.pi / 2 := by
    rcases hθ with rfl | rfl | rfl | rfl | rfl
    · have h : θr = -(Real.pi / 3) := by rw [hθr]; ring
      refine ⟨?_, by rw [h]; linarith, by rw [h]; linarith⟩
      rw [h, Real.sin_neg, abs_neg, Real.sin_pi_div_three, abs_of_nonneg (by positivity)]
    · have h : θr = -(Real.pi / 6) := by rw [hθr]; ring
      refine ⟨?_, by rw [h]; linarith, by rw [h]; linarith⟩
      rw [h, Real.sin_neg, abs_neg, Real.sin_pi_div_six, abs_of_nonneg (by norm_num)]
      linarith
    · have h : θr = 0 := by rw [hθr]; ring
      refine ⟨?_, by rw [h]; linarith, by rw [h]; linarith⟩
      rw [h, Real.sin_zero, abs_zero]
      positivity
    · have h : θr = Real.pi / 6 := by rw [hθr]; ring
      refine ⟨?_, by rw [h]; linarith, by rw [h]; linarith⟩
      rw [h, Real.sin_pi_div_six, abs_of_nonneg (by norm_num)]
      linarith
    · have h : θr = Real.pi / 3 := by rw [hθr]; ring
      refine ⟨?_, by rw [h]; linarith, by rw [h]; linarith⟩
      rw [h, Real.sin_pi_div_three, abs_of_nonneg (by positivity)]
  have hφdef : calculate_steering_phase θ f d
      = 2 * Real.pi * d * Real.sin θr / (3e8 / f) := by
    rw [calculate_steering_phase, npRadians, hθr]
  set φ := calculate_steering_phase θ f d with hφ
  have hφfac : φ = (2 * Real.pi * d / (3e8 / f)) * Real.sin θr := by
    rw [hφdef]
    ring
  have hφabs : |φ| < Real.pi := by
    rw [hφfac, abs_mul, abs_of_pos (by positivity)]
    have h2 : 2 * Real.pi * d / (3e8 / f) ≤ Real.pi := by
      rw [div_le_iff hwl]
      nlinarith
    calc 2 * Real.pi * d / (3e8 / f) * |Real.sin θr|
        ≤ Real.pi * (Real.sqrt 3 / 2) := by
          apply mul_le_mul h2 hcase.1 (abs_nonneg _) (le_of_lt hπ)
      _ < Real.pi := by nlinarith
  have hpair := calculate_aoa_phase f d φ (by cases abs_lt.mp hφabs; linarith)
    (abs_lt.mp hφabs).2 ch0 hnz
  rw [hpair]
  have harg : φ * (3e8 / f) / (2 * Real.pi * d) = Real.sin θr := by
    rw [hφfac]
    field_simp
    ring
  have hclamp : max (-1 : ℝ) (min 1 (Real.sin θr)) = Real.sin θr := by
    rw [min_eq_right (Real.sin_le_one θr), max_eq_right (Real.neg_one_le_sin θr)]
  rw [harg, hclamp, Real.arcsin_sin hcase.2.1 hcase.2.2]
  have hdeg : npDegrees θr = θ := by
    rw [npDegrees, hθr]
    field_simp
  rw [hdeg]
  simp

/-- Witness for C2 at `f = 3e8`, `d = 0.5` (half a wavelength), `θ = 0`
and the singleton block `[1]`. -/
theorem c2_angle_round_trip_witness :
    |(calculate_aoa 3e8 0.5 0 [(1 : ℂ)]
        ([(1 : ℂ)].map fun z =>
          z * Complex.exp ((calculate_steering_phase 0 3e8 0.5 : ℂ) * Complex.I))).1
      - 0| ≤ 1 :=
  c2_angle_round_trip 3e8 0.5 (by norm_num) (by norm_num) (by norm_num) 0
    (by norm_num) [(1 : ℂ)] ⟨1, by simp, one_ne_zero⟩

end UhdRadio
